import Mathlib

/-!
Verification of the statistical pipeline in `src/run_analysis.py`.

The script is a straight-line batch computation over a claims table
(columns `ClaimAmount`, `Age`, `IsSmoker`, `Denied`, `Department`) and a
monthly revenue table.  We give a shallow embedding of its numeric
computations: pandas/NumPy floating-point values are modelled as exact
rationals `ℚ`, a missing value (NaN) in a column is modelled as `none` of
`Option ℚ`, and computations that produce NaN (0/0, statistics of
degenerate samples, propagation of missing values) return `none`.
Quantities that are genuinely irrational (square roots inside the Pearson
correlation, the incomplete-beta integrals behind the t/F p-values) are
modelled in `ℝ`.
-/

namespace RunAnalysis

/-- One row of `claims.csv`.  `claimAmount` is `Option ℚ` because the
`ClaimAmount` column may contain missing values (NaN); the other numeric
columns are total. -/
structure ClaimRow where
  claimAmount : Option ℚ
  age : ℚ
  isSmoker : ℚ
  denied : ℚ
  department : String
deriving DecidableEq

/-- The claims table: `pd.read_csv(... "claims.csv")`. -/
abbrev ClaimTable := List ClaimRow

/-- The `ClaimAmount` column, `claims["ClaimAmount"]`. -/
def amounts (t : ClaimTable) : List (Option ℚ) := t.map (fun r => r.claimAmount)

/-- The non-missing claim amounts.  pandas reductions (`max`, `describe`,
`pd.cut` + `value_counts`) skip NaN entries, so they operate on this list. -/
def values (t : ClaimTable) : List ℚ := (amounts t).reduceOption

/-- Pointwise comparison `claims["ClaimAmount"] > 2500` (line 106).
In pandas a comparison against NaN yields `False`. -/
def gt2500 : Option ℚ → Bool
  | some q => decide (2500 < q)
  | none => false

/-- Line 106: `p_gt_2500 = (claims["ClaimAmount"] > 2500).mean()`.
The boolean series has one entry per row (missing amounts give `False`),
so the mean divides by the total row count; the mean of an empty series
is NaN (`none`). -/
def p_gt_2500 (t : ClaimTable) : Option ℚ :=
  if t = [] then none
  else some (((amounts t).countP gt2500 : ℚ) / (t.length : ℚ))

/-- Line 98: the fixed expected-value table
`cats = pd.DataFrame({"Type": [...], "Prob": [...], "AvgCost": [...]})`. -/
def cats : List (String × ℚ × ℚ) :=
  [("Routine", 62/100, 1000), ("Specialist", 28/100, 3000), ("Emergency", 10/100, 10000)]

/-- Line 99: `cats["Contribution"] = cats["Prob"] * cats["AvgCost"]`. -/
def contributions : List ℚ := cats.map (fun c => c.2.1 * c.2.2)

/-- Line 99, the full table with its `Contribution` column appended. -/
def evTable : List (String × ℚ × ℚ × ℚ) :=
  cats.map (fun c => (c.1, c.2.1, c.2.2, c.2.1 * c.2.2))

/-- Line 100: `ev = cats["Contribution"].sum()`. -/
def ev : ℚ := contributions.sum

/-- The end-to-end scenario table of the specification, with
`ClaimAmount = [100, 500, 900, 2600, 5000]`. -/
def demoTable : ClaimTable :=
  [⟨some 100, 25, 0, 0, "A"⟩, ⟨some 500, 31, 1, 0, "A"⟩, ⟨some 900, 47, 0, 1, "B"⟩,
   ⟨some 2600, 52, 1, 0, "B"⟩, ⟨some 5000, 60, 0, 1, "C"⟩]

/-- A table whose `ClaimAmount` column has one missing entry (row 1),
used to witness the missing-value semantics of the probability module. -/
def missTable : ClaimTable :=
  [⟨none, 20, 0, 0, "A"⟩, ⟨some 3000, 30, 1, 0, "B"⟩, ⟨some 100, 40, 0, 1, "A"⟩]

/-- Round half-to-even to an integer: the rounding mode of IEEE-754 /
NumPy / pandas `.round`.  Ties (fractional part exactly 1/2) go to the
even neighbour. -/
def roundHalfEven {α : Type} [LinearOrderedField α] [FloorRing α] (q : α) : ℤ :=
  if Int.fract q < 1/2 then ⌊q⌋
  else if 1/2 < Int.fract q then ⌊q⌋ + 1
  else if 2 ∣ ⌊q⌋ then ⌊q⌋ else ⌊q⌋ + 1

/-- `.round(2)`: round to two decimal places, half to even. -/
def round2 {α : Type} [LinearOrderedField α] [FloorRing α] (q : α) : α :=
  (roundHalfEven (100 * q) : α) / 100

/-- Maximum of a list, `Series.max()` on the non-missing entries.  The
script is undefined on an empty column (`np.arange(0, nan, 400)`); the
`[]` case returns the junk value 0 and is never relied upon. -/
def maxVal : List ℚ → ℚ
  | [] => 0
  | [a] => a
  | a :: b :: rest => max a (maxVal (b :: rest))

/-- The number of bins produced by line 36,
`bins = np.arange(0, claims["ClaimAmount"].max() + 401, 400)`:
the edges are the multiples of 400 strictly below `max + 401`, so there
are `⌈(max + 401)/400⌉` of them and one fewer bin. -/
def numBins (M : ℚ) : ℕ := ⌈(M + 401) / 400⌉₊ - 1

/-- Line 36: the bin-edge list `0, 400, 800, …, 400·numBins`. -/
def binEdges (M : ℚ) : List ℚ :=
  (List.range (numBins M + 1)).map (fun i => 400 * (i : ℚ))

/-- Modelled from the spec: "bin edges computed as 0, 400, 800, … up to
the first multiple of 400 strictly greater than the maximum observed
value" — the top edge the specification describes, used to compare
against the top edge the code computes. -/
def specTopEdge (M : ℚ) : ℚ := 400 * ((⌊M / 400⌋ : ℚ) + 1)

/-- Line 38: membership of a value in bin `i` under
`pd.cut(..., right=True, include_lowest=True)`: bin `i` is
`(400·i, 400·(i+1)]`, except the lowest bin which is `[0, 400]`. -/
def inBin (i : ℕ) (v : ℚ) : Bool :=
  if i = 0 then decide (0 ≤ v) && decide (v ≤ 400)
  else decide ((400 : ℚ) * i < v) && decide (v ≤ 400 * ((i : ℚ) + 1))

/-- The bin assigned to a value by `pd.cut` (`none` = NaN, value outside
every bin). -/
def binOf (M v : ℚ) : Option ℕ := (List.range (numBins M)).find? (fun i => inBin i v)

/-- Line 39: `freq = cut.value_counts().sort_index()` — the per-bin
counts in bin order (`value_counts` drops the NaN category, i.e. values
outside every bin). -/
def freqs (vals : List ℚ) : List ℕ :=
  (List.range (numBins (maxVal vals))).map (fun i => vals.countP (inBin i))

/-- `freq_df["Frequency"].sum()`. -/
def totalCount (vals : List ℚ) : ℕ := (freqs vals).sum

/-- Line 41: `(freq_df["Frequency"]/freq_df["Frequency"].sum()*100).round(2)`. -/
def relPcts (vals : List ℚ) : List ℚ :=
  (freqs vals).map (fun f : ℕ => round2 ((f : ℚ) / (totalCount vals : ℚ) * 100))

/-- Running sums with initial accumulator `acc` (`Series.cumsum`). -/
def cumsumFrom (acc : ℚ) : List ℚ → List ℚ
  | [] => []
  | x :: xs => (acc + x) :: cumsumFrom (acc + x) xs

/-- Line 42: `freq_df["Relative %"].cumsum().round(2)`. -/
def cumPcts (vals : List ℚ) : List ℚ := (cumsumFrom 0 (relPcts vals)).map round2

/-- A one-row table whose claim amount 399.5 is not an integer; it
refutes the "first multiple of 400 strictly greater than the maximum"
description of the top bin edge. -/
def cex4Table : ClaimTable := [⟨some (799/2), 30, 0, 0, "A"⟩]

/-- The pairwise-complete observations of two columns: the rows where
both entries are non-missing, as used by `DataFrame.corr` and
`DataFrame.cov` (pairwise deletion of NaN rows). -/
def completePairs (xs ys : List (Option ℚ)) : List (ℚ × ℚ) :=
  (xs.zip ys).filterMap (fun p => p.1.bind (fun a => p.2.map (fun b => (a, b))))

/-- Mean of the first components of the complete pairs. -/
def pairsMeanFst (l : List (ℚ × ℚ)) : ℚ := (l.map Prod.fst).sum / (l.length : ℚ)

/-- Mean of the second components of the complete pairs. -/
def pairsMeanSnd (l : List (ℚ × ℚ)) : ℚ := (l.map Prod.snd).sum / (l.length : ℚ)

/-- `Σ (x - x̄)(y - ȳ)` over the complete pairs. -/
def sumXY (l : List (ℚ × ℚ)) : ℚ :=
  (l.map (fun p => (p.1 - pairsMeanFst l) * (p.2 - pairsMeanSnd l))).sum

/-- `Σ (x - x̄)²` over the complete pairs. -/
def sumXX (l : List (ℚ × ℚ)) : ℚ :=
  (l.map (fun p => (p.1 - pairsMeanFst l)^2)).sum

/-- `Σ (y - ȳ)²` over the complete pairs. -/
def sumYY (l : List (ℚ × ℚ)) : ℚ :=
  (l.map (fun p => (p.2 - pairsMeanSnd l)^2)).sum

/-- One entry of `numeric.corr()` (line 66): the Pearson correlation
`Σ(x-x̄)(y-ȳ) / √(Σ(x-x̄)²·Σ(y-ȳ)²)` over the pairwise-complete rows,
kept as the exact rational triple `(Σ(x-x̄)(y-ȳ), Σ(x-x̄)², Σ(y-ȳ)²)`;
`none` models the NaN produced when either variance sum is zero (a
constant column, or fewer than two complete observations). -/
def corrEntry (xs ys : List (Option ℚ)) : Option (ℚ × ℚ × ℚ) :=
  if sumXX (completePairs xs ys) * sumYY (completePairs xs ys) = 0 then none
  else some (sumXY (completePairs xs ys), sumXX (completePairs xs ys),
    sumYY (completePairs xs ys))

/-- The real number represented by a correlation entry. -/
noncomputable def corrValue : Option (ℚ × ℚ × ℚ) → Option ℝ
  | none => none
  | some s => some ((s.1 : ℝ) / Real.sqrt ((s.2.1 : ℝ) * (s.2.2 : ℝ)))

/-- One entry of `numeric.cov()` (line 66): sample covariance with
`ddof = 1` over the pairwise-complete rows; NaN (`none`) when there are
fewer than two (0/0). -/
def covEntry (xs ys : List (Option ℚ)) : Option ℚ :=
  if (completePairs xs ys).length ≤ 1 then none
  else some (sumXY (completePairs xs ys) / (((completePairs xs ys).length : ℚ) - 1))

/-- Line 65: the four columns of
`numeric = claims[["Age","ClaimAmount","IsSmoker","Denied"]]`. -/
def numericCols (t : ClaimTable) : Fin 4 → List (Option ℚ)
  | 0 => t.map (fun r => some r.age)
  | 1 => t.map (fun r => r.claimAmount)
  | 2 => t.map (fun r => some r.isSmoker)
  | 3 => t.map (fun r => some r.denied)

/-- The correlation matrix `corr = numeric.corr()`. -/
def corrM (t : ClaimTable) (i j : Fin 4) : Option (ℚ × ℚ × ℚ) :=
  corrEntry (numericCols t i) (numericCols t j)

/-- The covariance matrix `cov = numeric.cov()`. -/
def covM (t : ClaimTable) (i j : Fin 4) : Option ℚ :=
  covEntry (numericCols t i) (numericCols t j)

/-- A one-row table: every column is degenerate (zero variance), so the
correlation diagonal is NaN, not 1, and the covariance diagonal is NaN,
not a non-negative variance. -/
def oneRowTable : ClaimTable := [⟨some 1200, 44, 1, 0, "A"⟩]

/-- Whether a column slice contains a missing value; NumPy/scipy
statistics of an array containing NaN are NaN (`nan_policy`
"propagate"). -/
def hasNone (xs : List (Option ℚ)) : Bool := xs.any (fun o => o.isNone)

/-- `mean` of a sample: NaN (`none`) if the sample is empty (0/0) or
contains NaN. -/
def listMean (xs : List (Option ℚ)) : Option ℚ :=
  if hasNone xs = true ∨ xs.length = 0 then none
  else some (xs.reduceOption.sum / (xs.length : ℚ))

/-- Sample variance with `ddof = 1`: NaN (`none`) when the sample has
fewer than two elements (0/0 at n = 1, empty mean at n = 0) or contains
NaN. -/
def listVar (xs : List (Option ℚ)) : Option ℚ :=
  if hasNone xs = true ∨ xs.length < 2 then none
  else some ((xs.reduceOption.map
      (fun x => (x - xs.reduceOption.sum / (xs.length : ℚ))^2)).sum
    / ((xs.length : ℚ) - 1))

/-- Line 78: `sm = claims.loc[claims["IsSmoker"]==1, "ClaimAmount"]`. -/
def smokersAmounts (t : ClaimTable) : List (Option ℚ) :=
  (t.filter (fun r => decide (r.isSmoker = 1))).map (fun r => r.claimAmount)

/-- Line 79: `ns = claims.loc[claims["IsSmoker"]==0, "ClaimAmount"]`. -/
def nonsmokersAmounts (t : ClaimTable) : List (Option ℚ) :=
  (t.filter (fun r => decide (r.isSmoker = 0))).map (fun r => r.claimAmount)

/-- Line 80: `stats.ttest_ind(sm, ns, equal_var=False)` — Welch's
unequal-variance t-test.  The t statistic involves a square root, so we
record the rational pair `(t², ν)` with
`t² = (x̄₁-x̄₂)² / (s₁²/n₁ + s₂²/n₂)` and `ν` the Welch–Satterthwaite
degrees of freedom; `none` models a NaN result (a group with fewer than
two observations, missing values, or a zero variance-sum denominator). -/
def welchFromGroups (sm ns : List (Option ℚ)) : Option (ℚ × ℚ) :=
  match listMean sm, listMean ns, listVar sm, listVar ns with
  | some m1, some m2, some v1, some v2 =>
    if v1 / (sm.length : ℚ) + v2 / (ns.length : ℚ) = 0 then none
    else some ((m1 - m2)^2 / (v1 / (sm.length : ℚ) + v2 / (ns.length : ℚ)),
      (v1 / (sm.length : ℚ) + v2 / (ns.length : ℚ))^2
        / ((v1 / (sm.length : ℚ))^2 / ((sm.length : ℚ) - 1)
           + (v2 / (ns.length : ℚ))^2 / ((ns.length : ℚ) - 1)))
  | _, _, _, _ => none

/-- Lines 78–80 combined: the Welch test of the script. -/
def welchStats (t : ClaimTable) : Option (ℚ × ℚ) :=
  welchFromGroups (smokersAmounts t) (nonsmokersAmounts t)

/-- Insert into a le-sorted list (auxiliary for `sortBy`). -/
def insortBy {α : Type} (le : α → α → Bool) (a : α) : List α → List α
  | [] => [a]
  | b :: bs => if le a b then a :: b :: bs else b :: insortBy le a bs

/-- Insertion sort; Python's `sorted` for a total order. -/
def sortBy {α : Type} (le : α → α → Bool) : List α → List α
  | [] => []
  | a :: as => insortBy le a (sortBy le as)

/-- Lexicographic comparison of character lists by code point — the
order Python's `sorted` uses on strings. -/
def charListLe : List Char → List Char → Bool
  | [], _ => true
  | _ :: _, [] => false
  | a :: as, b :: bs =>
    if a.val < b.val then true else if b.val < a.val then false else charListLe as bs

/-- Boolean string comparison by code point. -/
def strLeB (a b : String) : Bool := charListLe a.data b.data

/-- Line 57: `dept_names = sorted(claims["Department"].unique())`. -/
def deptNames (t : ClaimTable) : List String :=
  sortBy strLeB (t.map (fun r => r.department)).dedup

/-- Line 85: `groups = [claims.loc[claims["Department"]==d, "ClaimAmount"]
for d in dept_names]`. -/
def deptGroups (t : ClaimTable) : List (List (Option ℚ)) :=
  (deptNames t).map (fun d =>
    (t.filter (fun r => decide (r.department = d))).map (fun r => r.claimAmount))

/-- Line 86: `stats.f_oneway(*groups)` — one-way ANOVA.  scipy raises
`TypeError` when given fewer than two groups (`Except.error ()`, which
aborts the run); with at least two groups it always returns, producing
NaN (`.ok none`) on degenerate input (a NaN entry, an empty group,
`N ≤ k`, or zero within-group sum of squares, where NumPy's division
yields nan/inf rather than a finite statistic) and otherwise
`.ok (some (F, k-1, N-k))` with
`F = (ssb/(k-1)) / (ssw/(N-k))`. -/
def fOneway (gs : List (List (Option ℚ))) : Except Unit (Option (ℚ × ℕ × ℕ)) :=
  if gs.length < 2 then Except.error ()
  else if (gs.any (fun g => hasNone g)) ∨ (gs.any (fun g => g.length = 0)) then Except.ok none
  else
    if ((gs.map List.reduceOption).map List.length).sum ≤ gs.length
        ∨ ((gs.map List.reduceOption).map (fun g =>
            ((g.map (fun x => (x - g.sum / (g.length : ℚ))^2)).sum))).sum = 0
    then Except.ok none
    else Except.ok (some (
      (((gs.map List.reduceOption).map (fun g => (g.length : ℚ) *
          (g.sum / (g.length : ℚ)
            - ((gs.map List.reduceOption).map List.sum).sum
                / ((((gs.map List.reduceOption).map List.length).sum : ℕ) : ℚ))^2)).sum
        / ((gs.length : ℚ) - 1))
      / (((gs.map List.reduceOption).map (fun g =>
            ((g.map (fun x => (x - g.sum / (g.length : ℚ))^2)).sum))).sum
        / (((((gs.map List.reduceOption).map List.length).sum : ℕ) : ℚ) - (gs.length : ℚ))),
      gs.length - 1,
      ((gs.map List.reduceOption).map List.length).sum - gs.length))

/-- Sorted distinct values of a numeric column (`pd.crosstab` sorts its
index and column labels ascending). -/
def distinctSorted (xs : List ℚ) : List ℚ := sortBy (fun a b => decide (a ≤ b)) xs.dedup

/-- The row labels of `pd.crosstab(claims["Denied"], claims["IsSmoker"])`. -/
def deniedVals (t : ClaimTable) : List ℚ := distinctSorted (t.map (fun r => r.denied))

/-- The column labels of the contingency table. -/
def smokerVals (t : ClaimTable) : List ℚ := distinctSorted (t.map (fun r => r.isSmoker))

/-- Line 91: the observed contingency table of Denied × IsSmoker counts. -/
def observedTab (t : ClaimTable) : List (List ℕ) :=
  (deniedVals t).map (fun d => (smokerVals t).map (fun s =>
    t.countP (fun r => decide (r.denied = d) && decide (r.isSmoker = s))))

/-- The grand total `observed.sum()`. -/
def grandTot (t : ClaimTable) : ℕ := ((observedTab t).map List.sum).sum

/-- Line 92: the expected counts under independence,
`row-total × column-total / grand-total`. -/
def expectedTab (t : ClaimTable) : List (List ℚ) :=
  (observedTab t).map (fun row =>
    (List.range (smokerVals t).length).map (fun j =>
      ((row.sum : ℚ) * (((observedTab t).map (fun r => r.getD j 0)).sum : ℚ))
        / (grandTot t : ℚ)))

/-- Degrees of freedom as `scipy.stats.chi2_contingency` computes them:
`expected.size - sum(expected.shape) + expected.ndim - 1 = R·C - R - C + 1`. -/
def chiDof (t : ClaimTable) : ℤ :=
  ((deniedVals t).length : ℤ) * ((smokerVals t).length : ℤ)
    - ((deniedVals t).length : ℤ) - ((smokerVals t).length : ℤ) + 1

/-- One chi-square summand; with Yates continuity correction (scipy's
default when dof = 1): `(max(0, |O-E|-0.5))²/E`, else `(O-E)²/E`. -/
def chiTerm (o : ℕ) (e : ℚ) (yates : Bool) : ℚ :=
  if yates then (max 0 (|(o:ℚ) - e| - 1/2))^2 / e else ((o:ℚ) - e)^2 / e

/-- Line 92: the chi-square statistic of `stats.chi2_contingency`. -/
def chiStat (t : ClaimTable) : ℚ :=
  (((observedTab t).zip (expectedTab t)).map (fun rc =>
    ((rc.1.zip rc.2).map (fun oe => chiTerm oe.1 oe.2 (decide (chiDof t = 1)))).sum)).sum

/-- The lower incomplete beta-function integral `∫₀ˣ u^(a-1)(1-u)^(b-1) du`. -/
noncomputable def betaInc (a b x : ℝ) : ℝ :=
  ∫ u in (0:ℝ)..x, u ^ (a-1) * (1-u) ^ (b-1)

/-- The regularized incomplete beta function `I_x(a,b)`. -/
noncomputable def regIncBeta (a b x : ℝ) : ℝ := betaInc a b x / betaInc a b 1

/-- The two-sided Welch p-value `2·sf(|t|)` of line 80, as scipy's
`stdtr` computes it through the incomplete beta:
`p = I_{ν/(ν+t²)}(ν/2, 1/2)`; junk value 0 when the test is NaN. -/
noncomputable def welchP (t : ClaimTable) : ℝ :=
  match welchStats t with
  | some p => regIncBeta ((p.2:ℝ)/2) (1/2) ((p.2:ℝ)/((p.2:ℝ) + (p.1:ℝ)))
  | none => 0

/-- The ANOVA p-value `sf(F)` of line 86, as scipy's `fdtrc` computes it
through the incomplete beta: `p = I_{d₂/(d₂+d₁F)}(d₂/2, d₁/2)`; junk
value 0 when the test is NaN or raises. -/
noncomputable def anovaP (t : ClaimTable) : ℝ :=
  match fOneway (deptGroups t) with
  | Except.ok (some (F, dfn, dfd)) =>
      regIncBeta ((dfd:ℝ)/2) ((dfn:ℝ)/2) ((dfd:ℝ)/((dfd:ℝ) + (dfn:ℝ) * (F:ℝ)))
  | _ => 0

/-- A table with a single smoker: the smoker group has fewer than two
observations, so the Welch test is NaN. -/
def singleSmokerTable : ClaimTable :=
  [⟨some 100, 30, 1, 0, "A"⟩, ⟨some 200, 40, 0, 0, "A"⟩, ⟨some 300, 50, 0, 1, "A"⟩]

/-- A table whose `Department` column has a single distinct value. -/
def oneDeptTable : ClaimTable :=
  [⟨some 100, 30, 1, 0, "A"⟩, ⟨some 300, 40, 1, 1, "A"⟩, ⟨some 200, 50, 0, 0, "A"⟩]

/-- A well-conditioned table: two smokers and two non-smokers with
distinct amounts, two departments with within-group variance. -/
def testTable : ClaimTable :=
  [⟨some 100, 30, 1, 0, "A"⟩, ⟨some 300, 40, 1, 1, "A"⟩,
   ⟨some 200, 50, 0, 0, "B"⟩, ⟨some 600, 60, 0, 1, "B"⟩]

/-- Ascending sort of a rational column. -/
def sortedVals (l : List ℚ) : List ℚ := sortBy (fun a b => decide (a ≤ b)) l

/-- pandas linear-interpolation quantile:
`q(p) = s[⌊h⌋] + (h - ⌊h⌋)·(s[⌊h⌋+1] - s[⌊h⌋])` with `h = p·(n-1)` over
the sorted values. -/
def quantileQ (l : List ℚ) (p : ℚ) : ℚ :=
  (sortedVals l).getD (⌊p * ((l.length : ℚ) - 1)⌋.toNat) 0
    + (p * ((l.length : ℚ) - 1) - ((⌊p * ((l.length : ℚ) - 1)⌋.toNat : ℕ) : ℚ))
      * ((sortedVals l).getD (⌊p * ((l.length : ℚ) - 1)⌋.toNat + 1)
            ((sortedVals l).getD (⌊p * ((l.length : ℚ) - 1)⌋.toNat) 0)
        - (sortedVals l).getD (⌊p * ((l.length : ℚ) - 1)⌋.toNat) 0)

/-- The k-th central moment sum `Σ (x - x̄)^k` (pandas `nanskew`/`nankurt`
work with these undivided sums). -/
def centralMomentSum (l : List ℚ) (k : ℕ) : ℚ :=
  (l.map (fun x => (x - l.sum / (l.length : ℚ))^k)).sum

/-- The eight fields of `Series.describe()`, each rounded to 2 decimals
as the script does for its output tables. -/
structure DescStats where
  count : ℚ
  mean : ℚ
  std : ℝ
  min : ℚ
  q1 : ℚ
  median : ℚ
  q3 : ℚ
  max : ℚ

/-- `describe().round(2)` of a numeric column (lines 23 and 116). -/
noncomputable def describeStats (l : List ℚ) : DescStats :=
  ⟨round2 ((l.length : ℚ)),
   round2 (l.sum / (l.length : ℚ)),
   round2 (Real.sqrt ((centralMomentSum l 2 / ((l.length : ℚ) - 1) : ℚ) : ℝ)),
   round2 ((sortedVals l).getD 0 0),
   round2 (quantileQ l (1/4)),
   round2 (quantileQ l (1/2)),
   round2 (quantileQ l (3/4)),
   round2 ((sortedVals l).getD (l.length - 1) 0)⟩

/-- The summary Series of lines 24–32: `describe` plus IQR, pandas
bias-corrected skewness `(n·√(n-1)/(n-2)) · m₃/m₂^{3/2}` and pandas
bias-corrected excess kurtosis
`n(n+1)(n-1)m₄ / ((n-2)(n-3)m₂²) − 3(n-1)²/((n-2)(n-3))`, rounded to 2
decimals. -/
structure ClaimsSummary where
  base : DescStats
  iqr : ℚ
  skewness : ℝ
  kurtosis : ℚ

/-- Lines 23–32 applied to the claim amounts. -/
noncomputable def claimsSummary (t : ClaimTable) : ClaimsSummary :=
  ⟨describeStats (values t),
   round2 (quantileQ (values t) (3/4) - quantileQ (values t) (1/4)),
   round2 ((((values t).length : ℝ) * Real.sqrt (((values t).length : ℝ) - 1)
       / (((values t).length : ℝ) - 2))
     * ((centralMomentSum (values t) 3 : ℝ)
        / ((centralMomentSum (values t) 2 : ℝ)) ^ ((3:ℝ)/2))),
   round2 ((((values t).length : ℚ) * (((values t).length : ℚ) + 1)
        * (((values t).length : ℚ) - 1) * centralMomentSum (values t) 4)
      / ((((values t).length : ℚ) - 2) * (((values t).length : ℚ) - 3)
        * (centralMomentSum (values t) 2)^2)
     - 3 * (((values t).length : ℚ) - 1)^2
        / ((((values t).length : ℚ) - 2) * (((values t).length : ℚ) - 3)))⟩

/-- Line 37: the bin label `f"{int(bins[i])}-{int(bins[i+1]-1)}"`. -/
def rangeLabel (i : ℕ) : String :=
  toString (400 * i) ++ "-" ++ toString (400 * (i+1) - 1)

/-- Lines 40–43: the frequency-distribution table
(Range, Frequency, Relative %, Cumulative %). -/
def freqTable (vals : List ℚ) : List (String × ℕ × ℚ × ℚ) :=
  (List.range (numBins (maxVal vals))).map (fun i =>
    (rangeLabel i, (freqs vals).getD i 0, (relPcts vals).getD i 0, (cumPcts vals).getD i 0))

/-- Every tabular or text artifact the script writes, as in-memory data:
the descriptive summary, the frequency table, both association matrices,
the three test results with their p-values, the expected-value table and
scalar, the empirical probability, and the revenue summary. -/
structure PipelineOut where
  summary : ClaimsSummary
  freqRows : List (String × ℕ × ℚ × ℚ)
  corrMat : Fin 4 → Fin 4 → Option (ℚ × ℚ × ℚ)
  covMat : Fin 4 → Fin 4 → Option ℚ
  welchRes : Option (ℚ × ℚ)
  welchPValue : ℝ
  anovaRes : Except Unit (Option (ℚ × ℕ × ℕ))
  anovaPValue : ℝ
  chiObserved : List (List ℕ)
  chiExpected : List (List ℚ)
  chiStatistic : ℚ
  chiDegrees : ℤ
  evRows : List (String × ℚ × ℚ × ℚ)
  evScalar : ℚ
  probScalar : Option ℚ
  revSummary : DescStats

/-- The whole batch computation of `run_analysis.py`, from the two loaded
tables to every tabular/text artifact. -/
noncomputable def pipeline (t : ClaimTable) (rev : List ℚ) : PipelineOut :=
  ⟨claimsSummary t, freqTable (values t), corrM t, covM t, welchStats t, welchP t,
   fOneway (deptGroups t), anovaP t, observedTab t, expectedTab t, chiStat t, chiDof t,
   evTable, ev, p_gt_2500 t, describeStats rev⟩

/- ======================  theorems  ====================== -/

lemma countP_gt2500_reduceOption (xs : List (Option ℚ)) :
    xs.countP gt2500 = xs.reduceOption.countP (fun v => decide (2500 < v)) := by
  induction xs with
  | nil => rfl
  | cons o rest ih =>
    cases o with
    | none => simpa [List.countP_cons, gt2500] using ih
    | some a => simp [List.countP_cons, gt2500, ih]

/-- C1: for every claims table the empirical probability written by the
empirical-probability module equals `count(ClaimAmount > 2500) / count(rows)`,
lies in `[0, 1]`, is undefined (NaN) on an empty table, and on the scenario
table with amounts `[100, 500, 900, 2600, 5000]` it equals `2/5`. -/
theorem C1_empirical_probability (t : ClaimTable) (h : t ≠ []) :
    p_gt_2500 t = some (((amounts t).countP gt2500 : ℚ) / (t.length : ℚ))
    ∧ (∀ q, p_gt_2500 t = some q → 0 ≤ q ∧ q ≤ 1)
    ∧ p_gt_2500 [] = none
    ∧ p_gt_2500 demoTable = some (2/5) := by
  have hdemo : p_gt_2500 demoTable = some (2/5) := by
    rw [p_gt_2500, if_neg (by simp [demoTable])]
    norm_num [demoTable, amounts, gt2500, List.countP_cons, List.countP_nil]
  refine ⟨by simp [p_gt_2500, h], ?_, rfl, hdemo⟩
  intro q hq
  rw [p_gt_2500, if_neg h] at hq
  have hq' : q = (((amounts t).countP gt2500 : ℚ) / (t.length : ℚ)) :=
    (Option.some_injective _ hq).symm
  have hcnt : (amounts t).countP gt2500 ≤ t.length := by
    simpa [amounts] using List.countP_le_length (p := gt2500) (l := amounts t)
  have hlen : 0 < (t.length : ℚ) := by
    have : 0 < t.length := List.length_pos.mpr h
    exact_mod_cast this
  constructor
  · rw [hq']
    exact div_nonneg (by positivity) hlen.le
  · rw [hq']
    rw [div_le_one hlen]
    exact_mod_cast hcnt

/-- Witness for C1 at the scenario table. -/
theorem C1_empirical_probability_witness :
    p_gt_2500 demoTable = some (2/5) :=
  (C1_empirical_probability demoTable (by decide)).2.2.2

/-- C2: the expected-value scalar equals
`0.62·1000 + 0.28·3000 + 0.10·10000 = 2460`, and each row's contribution
column equals that row's probability times its average cost. -/
theorem C2_expected_value :
    contributions = [620, 840, 1000]
    ∧ ev = 62/100 * 1000 + 28/100 * 3000 + 10/100 * 10000
    ∧ ev = 2460
    ∧ ev = contributions.sum
    ∧ ∀ r ∈ evTable, r.2.2.2 = r.2.1 * r.2.2.1 := by
  refine ⟨?_, ?_, ?_, rfl, ?_⟩
  · simp [contributions, cats]; norm_num
  · norm_num [ev, contributions, cats]
  · norm_num [ev, contributions, cats]
  · intro r hr
    fin_cases hr <;> norm_num

/-- C10: rows with a missing `ClaimAmount` are counted in the denominator
of the empirical probability but never in the numerator: the reported
probability equals `count(non-missing amounts > 2500) / count(all rows)`. -/
theorem C10_missing_amount_semantics (t : ClaimTable) (h : t ≠ []) :
    p_gt_2500 t
      = some ((((values t).countP (fun v => decide (2500 < v)) : ℕ) : ℚ) / (t.length : ℚ)) := by
  rw [p_gt_2500, if_neg h, values, countP_gt2500_reduceOption]

/-- Witness for C10 at a table with one missing amount among three rows. -/
theorem C10_missing_amount_semantics_witness :
    p_gt_2500 missTable
      = some ((((values missTable).countP (fun v => decide (2500 < v)) : ℕ) : ℚ)
          / ((missTable.length : ℕ) : ℚ)) :=
  C10_missing_amount_semantics missTable (by decide)

/- ----- rounding lemmas ----- -/

lemma roundHalfEven_intCast {α : Type} [LinearOrderedField α] [FloorRing α] (z : ℤ) :
    roundHalfEven (z : α) = z := by
  unfold roundHalfEven
  rw [Int.fract_intCast, if_pos (by norm_num), Int.floor_intCast]

lemma abs_roundHalfEven_sub {α : Type} [LinearOrderedField α] [FloorRing α] (q : α) :
    |(roundHalfEven q : α) - q| ≤ 1/2 := by
  have h0 : 0 ≤ Int.fract q := Int.fract_nonneg q
  have h1 : Int.fract q < 1 := Int.fract_lt_one q
  have hfq : (⌊q⌋ : α) = q - Int.fract q := by rw [Int.fract]; ring
  unfold roundHalfEven
  split_ifs with hlt hgt hdvd
  · rw [hfq, show q - Int.fract q - q = -Int.fract q by ring, abs_neg, abs_of_nonneg h0]
    linarith
  · push_cast
    rw [hfq, show q - Int.fract q + 1 - q = 1 - Int.fract q by ring,
      abs_of_nonneg (by linarith)]
    linarith
  · have heq : Int.fract q = 1/2 := le_antisymm (not_lt.mp hgt) (not_lt.mp hlt)
    rw [hfq, show q - Int.fract q - q = -Int.fract q by ring, abs_neg, abs_of_nonneg h0, heq]
  · have heq : Int.fract q = 1/2 := le_antisymm (not_lt.mp hgt) (not_lt.mp hlt)
    push_cast
    rw [hfq, show q - Int.fract q + 1 - q = 1 - Int.fract q by ring,
      abs_of_nonneg (by linarith), heq]
    norm_num

lemma roundHalfEven_nonneg {α : Type} [LinearOrderedField α] [FloorRing α] {q : α}
    (h : 0 ≤ q) : 0 ≤ roundHalfEven q := by
  have hf : 0 ≤ ⌊q⌋ := Int.floor_nonneg.mpr h
  unfold roundHalfEven
  split_ifs <;> omega

lemma abs_round2_sub (q : ℚ) : |round2 q - q| ≤ 1/200 := by
  have h := abs_roundHalfEven_sub (α := ℚ) (100 * q)
  unfold round2
  rw [show (roundHalfEven (100*q) : ℚ)/100 - q = ((roundHalfEven (100*q) : ℚ) - 100*q)/100
    by ring, abs_div, abs_of_pos (by norm_num : (0:ℚ) < 100)]
  rw [div_le_iff₀ (by norm_num : (0:ℚ) < 100)]
  linarith

lemma round2_nonneg {q : ℚ} (h : 0 ≤ q) : 0 ≤ round2 q := by
  unfold round2
  have : (0:ℤ) ≤ roundHalfEven (100 * q) := roundHalfEven_nonneg (by positivity)
  positivity

lemma round2_int_div100 (z : ℤ) : round2 ((z : ℚ)/100) = (z : ℚ)/100 := by
  unfold round2
  rw [show (100:ℚ) * ((z:ℚ)/100) = (z:ℚ) by field_simp, roundHalfEven_intCast]

lemma round2_form (q : ℚ) : ∃ z : ℤ, round2 q = (z : ℚ)/100 :=
  ⟨roundHalfEven (100 * q), rfl⟩

lemma sum_map_add {α : Type} (l : List α) (f g : α → ℚ) :
    (l.map (fun x => f x + g x)).sum = (l.map f).sum + (l.map g).sum := by
  induction l with
  | nil => simp
  | cons a l ih => simp [ih]; ring

lemma abs_sum_round2 (l : List ℚ) :
    |(l.map round2).sum - l.sum| ≤ (l.length : ℚ)/200 := by
  induction l with
  | nil => simp
  | cons a l ih =>
    have h := abs_round2_sub a
    calc |((a :: l).map round2).sum - (a :: l).sum|
        = |(round2 a - a) + ((l.map round2).sum - l.sum)| := by simp; ring_nf
      _ ≤ |round2 a - a| + |(l.map round2).sum - l.sum| := abs_add _ _
      _ ≤ 1/200 + (l.length : ℚ)/200 := add_le_add h ih
      _ = ((a :: l).length : ℚ)/200 := by simp [List.length_cons]; ring

/- ----- bin partition lemmas ----- -/

lemma le_maxVal (l : List ℚ) : ∀ v ∈ l, v ≤ maxVal l := by
  induction l with
  | nil => simp
  | cons a rest ih =>
    intro v hv
    cases rest with
    | nil => simp at hv; simp [maxVal, hv]
    | cons b r' =>
      rcases List.mem_cons.mp hv with h | h
      · rw [h, maxVal]; exact le_max_left _ _
      · exact le_trans (ih v h) (le_max_right _ _)

lemma maxVal_nonneg {l : List ℚ} (h1 : l ≠ []) (h2 : ∀ v ∈ l, 0 ≤ v) :
    0 ≤ maxVal l := by
  obtain ⟨v, hv⟩ := List.exists_mem_of_ne_nil l h1
  exact le_trans (h2 v hv) (le_maxVal l v hv)

lemma two_le_ceil_numBins {M : ℚ} (hM : 0 ≤ M) : 2 ≤ ⌈(M + 401) / 400⌉₊ := by
  have : (1 : ℚ) < (M + 401) / 400 := by
    rw [lt_div_iff₀ (by norm_num : (0:ℚ) < 400)]; linarith
  have h2 := Nat.lt_ceil.mpr (by exact_mod_cast this : ((1:ℕ) : ℚ) < (M + 401) / 400)
  omega

lemma numBins_pos {M : ℚ} (hM : 0 ≤ M) : 1 ≤ numBins M := by
  have := two_le_ceil_numBins hM
  unfold numBins; omega

lemma numBins_cast {M : ℚ} (hM : 0 ≤ M) :
    (numBins M : ℚ) = (⌈(M + 401) / 400⌉₊ : ℚ) - 1 := by
  have h2 := two_le_ceil_numBins hM
  unfold numBins
  have : (1:ℕ) ≤ ⌈(M + 401) / 400⌉₊ := by omega
  push_cast [this]
  ring

lemma le_400_numBins_succ {M : ℚ} (hM : 0 ≤ M) :
    M + 401 ≤ 400 * ((numBins M : ℚ) + 1) := by
  have hle : (M + 401) / 400 ≤ (⌈(M + 401) / 400⌉₊ : ℚ) := Nat.le_ceil _
  rw [div_le_iff₀ (by norm_num : (0:ℚ) < 400)] at hle
  rw [numBins_cast hM]
  linarith

lemma lt_400_numBins {M : ℚ} (hM : 0 ≤ M) : M < 400 * (numBins M : ℚ) := by
  have := le_400_numBins_succ hM
  linarith

lemma numBins_400_lt {M : ℚ} (hM : 0 ≤ M) : 400 * (numBins M : ℚ) < M + 401 := by
  have h2 := two_le_ceil_numBins hM
  have hlt : numBins M < ⌈(M + 401) / 400⌉₊ := by unfold numBins; omega
  have := Nat.lt_ceil.mp hlt
  rw [lt_div_iff₀ (by norm_num : (0:ℚ) < 400)] at this
  linarith

lemma inBin_nonneg {i : ℕ} {v : ℚ} (h : inBin i v = true) : 0 ≤ v := by
  unfold inBin at h
  split_ifs at h with h0 <;> rw [Bool.and_eq_true, decide_eq_true_eq, decide_eq_true_eq] at h
  · exact h.1
  · have : (0:ℚ) ≤ 400 * (i:ℚ) := by positivity
    linarith [h.1]

lemma inBin_upper {i : ℕ} {v : ℚ} (h : inBin i v = true) : v ≤ 400 * ((i:ℚ) + 1) := by
  unfold inBin at h
  split_ifs at h with h0 <;> rw [Bool.and_eq_true, decide_eq_true_eq, decide_eq_true_eq] at h
  · rw [h0]; push_cast; linarith [h.2]
  · exact h.2

lemma inBin_lower {i : ℕ} {v : ℚ} (h : inBin i v = true) (hi : i ≠ 0) :
    400 * (i:ℚ) < v := by
  unfold inBin at h
  rw [if_neg hi, Bool.and_eq_true, decide_eq_true_eq, decide_eq_true_eq] at h
  exact h.1

lemma inBin_unique {i j : ℕ} {v : ℚ} (hi : inBin i v = true) (hj : inBin j v = true) :
    i = j := by
  have key : ∀ a b : ℕ, a < b → inBin a v = true → inBin b v = true → False := by
    intro a b hab ha hb
    have h1 := inBin_upper ha
    have h2 := inBin_lower hb (by omega)
    have h3 : ((a:ℚ) + 1) ≤ (b:ℚ) := by exact_mod_cast Nat.succ_le_of_lt hab
    nlinarith
  rcases lt_trichotomy i j with h | h | h
  · exact absurd (key i j h hi hj) (by simp)
  · exact h
  · exact absurd (key j i h hj hi) (by simp)

lemma inBin_exists {v : ℚ} {k : ℕ} (h0 : 0 ≤ v) (hk : v ≤ 400 * (k:ℚ)) (hk1 : 1 ≤ k) :
    ∃ i, i < k ∧ inBin i v = true := by
  by_cases hv : v ≤ 400
  · exact ⟨0, hk1, by unfold inBin; simp [h0, hv]⟩
  · push_neg at hv
    have hc2 : 2 ≤ ⌈v / 400⌉₊ := by
      have : (1 : ℚ) < v / 400 := by
        rw [lt_div_iff₀ (by norm_num : (0:ℚ) < 400)]; linarith
      have := Nat.lt_ceil.mpr (by exact_mod_cast this : ((1:ℕ) : ℚ) < v / 400)
      omega
    have hck : ⌈v / 400⌉₊ ≤ k := by
      apply Nat.ceil_le.mpr
      rw [div_le_iff₀ (by norm_num : (0:ℚ) < 400)]
      linarith
    refine ⟨⌈v / 400⌉₊ - 1, by omega, ?_⟩
    have hne : ⌈v / 400⌉₊ - 1 ≠ 0 := by omega
    have hcast : ((⌈v / 400⌉₊ - 1 : ℕ) : ℚ) = (⌈v / 400⌉₊ : ℚ) - 1 := by
      have : (1:ℕ) ≤ ⌈v / 400⌉₊ := by omega
      push_cast [this]; ring
    have hlow : ((⌈v / 400⌉₊ - 1 : ℕ) : ℚ) < v / 400 := by
      rw [hcast]
      have := Nat.lt_ceil.mp (show ⌈v / 400⌉₊ - 1 < ⌈v / 400⌉₊ by omega)
      rw [hcast] at this
      exact this
    have hup : v / 400 ≤ (⌈v / 400⌉₊ : ℚ) := Nat.le_ceil _
    unfold inBin
    rw [if_neg hne, Bool.and_eq_true, decide_eq_true_eq, decide_eq_true_eq]
    constructor
    · rw [lt_div_iff₀ (by norm_num : (0:ℚ) < 400)] at hlow; linarith
    · rw [div_le_iff₀ (by norm_num : (0:ℚ) < 400)] at hup
      rw [hcast]; linarith

lemma length_eq_one_of_nodup {α : Type} {L : List α} {i : α}
    (hnd : L.Nodup) (hmem : i ∈ L) (hall : ∀ x ∈ L, x = i) : L.length = 1 := by
  rcases L with _ | ⟨x, rest⟩
  · simp at hmem
  · rcases rest with _ | ⟨y, r2⟩
    · rfl
    · exfalso
      have hx : x = i := hall x (by simp)
      have hy : y = i := hall y (by simp)
      have := (List.nodup_cons.mp hnd).1
      exact this (by simp [hx, hy])

lemma countP_range_inBin {v : ℚ} {k : ℕ} (h0 : 0 ≤ v) (hk : v ≤ 400 * (k:ℚ)) (hk1 : 1 ≤ k) :
    (List.range k).countP (fun i => inBin i v) = 1 := by
  obtain ⟨i, hik, hbin⟩ := inBin_exists h0 hk hk1
  rw [List.countP_eq_length_filter]
  apply length_eq_one_of_nodup (i := i)
  · exact List.Nodup.filter _ (List.nodup_range k)
  · exact List.mem_filter.mpr ⟨List.mem_range.mpr hik, hbin⟩
  · intro x hx
    exact inBin_unique (by simpa using (List.mem_filter.mp hx).2) hbin

lemma sum_map_ite_one (idxs : List ℕ) (q : ℕ → Bool) :
    (idxs.map (fun i => if q i then 1 else 0)).sum = idxs.countP q := by
  induction idxs with
  | nil => simp
  | cons i is ih => simp [List.countP_cons, ih]; split_ifs <;> omega

lemma sum_map_add_nat {α : Type} (l : List α) (f g : α → ℕ) :
    (l.map (fun x => f x + g x)).sum = (l.map f).sum + (l.map g).sum := by
  induction l with
  | nil => simp
  | cons a l ih => simp [ih]; omega

lemma sum_map_countP {α : Type} (l : List α) (idxs : List ℕ) (p : ℕ → α → Bool) :
    (idxs.map (fun i => l.countP (p i))).sum
      = (l.map (fun v => idxs.countP (fun i => p i v))).sum := by
  induction l with
  | nil => simp
  | cons v l ih =>
    calc (idxs.map (fun i => (v :: l).countP (p i))).sum
        = (idxs.map (fun i => l.countP (p i) + (if p i v then 1 else 0))).sum := by
          simp [List.countP_cons]
      _ = (idxs.map (fun i => l.countP (p i))).sum
            + (idxs.map (fun i => if p i v then 1 else 0)).sum := by
          rw [← sum_map_add_nat]
      _ = (l.map (fun w => idxs.countP (fun i => p i w))).sum
            + idxs.countP (fun i => p i v) := by rw [ih, sum_map_ite_one]
      _ = ((v :: l).map (fun w => idxs.countP (fun i => p i w))).sum := by
          simp [List.sum_cons]; omega

lemma totalCount_eq {vals : List ℚ} (h1 : vals ≠ []) (h2 : ∀ v ∈ vals, 0 ≤ v) :
    totalCount vals = vals.length := by
  have hM : 0 ≤ maxVal vals := maxVal_nonneg h1 h2
  unfold totalCount freqs
  rw [sum_map_countP]
  have hone : ∀ v ∈ vals, (List.range (numBins (maxVal vals))).countP (fun i => inBin i v) = 1 :=
    fun v hv => countP_range_inBin (h2 v hv)
      (le_trans (le_maxVal vals v hv) (le_of_lt (lt_400_numBins hM))) (numBins_pos hM)
  rw [List.map_congr_left hone]
  simp

lemma sum_map_mul_right_q {α : Type} (l : List α) (f : α → ℚ) (r : ℚ) :
    (l.map (fun x => f x * r)).sum = (l.map f).sum * r := by
  induction l with
  | nil => simp
  | cons a l ih => simp [ih]; ring

lemma sum_pcts {vals : List ℚ} (h1 : vals ≠ []) (h2 : ∀ v ∈ vals, 0 ≤ v) :
    ((freqs vals).map (fun f : ℕ => (f:ℚ) / (totalCount vals : ℚ) * 100)).sum = 100 := by
  have htc := totalCount_eq h1 h2
  have hlen : 0 < vals.length := List.length_pos.mpr h1
  have hn : (0:ℚ) < (totalCount vals : ℚ) := by rw [htc]; exact_mod_cast hlen
  have hcong : (freqs vals).map (fun f : ℕ => (f:ℚ) / (totalCount vals : ℚ) * 100)
      = (freqs vals).map (fun f : ℕ => (f:ℚ) * (100 / (totalCount vals : ℚ))) := by
    apply List.map_congr_left; intro f _; ring
  rw [hcong, sum_map_mul_right_q, ← Nat.cast_list_sum]
  show ((totalCount vals : ℕ) : ℚ) * (100 / (totalCount vals : ℚ)) = 100
  field_simp

lemma relPcts_nonneg {vals : List ℚ} : ∀ x ∈ relPcts vals, 0 ≤ x := by
  intro x hx
  obtain ⟨f, _, rfl⟩ := List.mem_map.mp hx
  apply round2_nonneg
  positivity

lemma relPcts_form {vals : List ℚ} : ∀ x ∈ relPcts vals, ∃ z : ℤ, x = (z:ℚ)/100 := by
  intro x hx
  obtain ⟨f, _, rfl⟩ := List.mem_map.mp hx
  exact round2_form _

lemma cumsum_map_round2 (l : List ℚ) (hl : ∀ x ∈ l, ∃ z : ℤ, x = (z:ℚ)/100) :
    ∀ a : ℤ, (cumsumFrom ((a:ℚ)/100) l).map round2 = cumsumFrom ((a:ℚ)/100) l := by
  induction l with
  | nil => intro a; simp [cumsumFrom]
  | cons x xs ih =>
    intro a
    obtain ⟨z, hz⟩ := hl x (by simp)
    have hsum : (a:ℚ)/100 + x = ((a + z : ℤ):ℚ)/100 := by rw [hz]; push_cast; ring
    rw [cumsumFrom, List.map_cons, hsum, round2_int_div100,
      ih (fun y hy => hl y (List.mem_cons_of_mem x hy)) (a+z)]

lemma cumPcts_eq (vals : List ℚ) : cumPcts vals = cumsumFrom 0 (relPcts vals) := by
  have h0 : (0:ℚ) = ((0:ℤ):ℚ)/100 := by norm_num
  rw [cumPcts, h0]
  exact cumsum_map_round2 (relPcts vals) relPcts_form 0

lemma cumsumFrom_chain : ∀ (l : List ℚ), (∀ x ∈ l, 0 ≤ x) → ∀ a : ℚ,
    List.Chain' (· ≤ ·) (cumsumFrom a l)
  | [], _, a => by simp [cumsumFrom]
  | [x], _, a => by simp [cumsumFrom]
  | x :: y :: ys, hl, a => by
    rw [cumsumFrom, show cumsumFrom (a + x) (y :: ys) = ((a+x)+y) :: cumsumFrom ((a+x)+y) ys
      from rfl]
    apply List.chain'_cons.mpr
    constructor
    · have hy : 0 ≤ y := hl y (by simp)
      linarith
    · have h := cumsumFrom_chain (y :: ys) (fun u hu => hl u (List.mem_cons_of_mem x hu)) (a + x)
      rw [show cumsumFrom (a + x) (y :: ys) = ((a+x)+y) :: cumsumFrom ((a+x)+y) ys
        from rfl] at h
      exact h

lemma cumsumFrom_getLast : ∀ (l : List ℚ), l ≠ [] → ∀ a : ℚ,
    (cumsumFrom a l).getLast? = some (a + l.sum)
  | [], h, _ => absurd rfl h
  | [x], _, a => by simp [cumsumFrom]
  | x :: y :: ys, _, a => by
    rw [cumsumFrom, show cumsumFrom (a + x) (y :: ys) = ((a+x)+y) :: cumsumFrom ((a+x)+y) ys
      from rfl, List.getLast?_cons_cons]
    have h := cumsumFrom_getLast (y :: ys) (by simp) (a + x)
    rw [show cumsumFrom (a + x) (y :: ys) = ((a+x)+y) :: cumsumFrom ((a+x)+y) ys
      from rfl] at h
    rw [h]
    simp [List.sum_cons]
    ring

lemma relPcts_ne_nil {vals : List ℚ} (h1 : vals ≠ []) (h2 : ∀ v ∈ vals, 0 ≤ v) :
    relPcts vals ≠ [] := by
  have hM : 0 ≤ maxVal vals := maxVal_nonneg h1 h2
  have hk := numBins_pos hM
  have : (relPcts vals).length = numBins (maxVal vals) := by simp [relPcts, freqs]
  intro hnil
  rw [hnil] at this
  simp at this
  omega

/-- C3: for every table whose (non-negative) claim-amount column has at
least one non-missing value, the relative percentages of the frequency
table sum to 100 within rounding tolerance (at most half a unit in the
last place per bin), the cumulative-percentage column is monotonically
non-decreasing, and its last entry is 100 within the same tolerance. -/
theorem C3_frequency_table (t : ClaimTable)
    (h1 : values t ≠ []) (h2 : ∀ v ∈ values t, 0 ≤ v) :
    |(relPcts (values t)).sum - 100| ≤ (numBins (maxVal (values t)) : ℚ) / 200
    ∧ List.Chain' (· ≤ ·) (cumPcts (values t))
    ∧ (∀ L, (cumPcts (values t)).getLast? = some L →
        |L - 100| ≤ (numBins (maxVal (values t)) : ℚ) / 200) := by
  have hsum : |(relPcts (values t)).sum - 100| ≤ (numBins (maxVal (values t)) : ℚ) / 200 := by
    have hb := abs_sum_round2
      ((freqs (values t)).map (fun f : ℕ => (f:ℚ) / (totalCount (values t) : ℚ) * 100))
    rw [sum_pcts h1 h2] at hb
    have hlen : ((freqs (values t)).map
        (fun f : ℕ => (f:ℚ)/(totalCount (values t):ℚ)*100)).length
        = numBins (maxVal (values t)) := by simp [freqs]
    rw [hlen] at hb
    have hre : relPcts (values t)
        = ((freqs (values t)).map
            (fun f : ℕ => (f:ℚ)/(totalCount (values t):ℚ)*100)).map round2 := by
      rw [relPcts, List.map_map]
      rfl
    rw [hre]
    exact hb
  refine ⟨hsum, ?_, ?_⟩
  · rw [cumPcts_eq]
    exact cumsumFrom_chain (relPcts (values t)) relPcts_nonneg 0
  · intro L hL
    rw [cumPcts_eq, cumsumFrom_getLast _ (relPcts_ne_nil h1 h2) 0] at hL
    have : (0:ℚ) + (relPcts (values t)).sum = L := by
      exact_mod_cast Option.some_injective _ hL
    rw [← this, zero_add]
    exact hsum

/-- Witness for C3 at the scenario table (amounts 100…5000). -/
theorem C3_frequency_table_witness :
    List.Chain' (· ≤ ·) (cumPcts (values demoTable)) :=
  (C3_frequency_table demoTable (by simp [values, amounts, demoTable])
    (by intro v hv; simp [values, amounts, demoTable] at hv
        rcases hv with h|h|h|h|h <;> rw [h] <;> norm_num)).2.1

/- ----- C4: bin edges ----- -/

/-- C4 (amended): the bin edges are `0, 400, …, 400·numBins` where the top
edge `400·numBins` is the largest multiple of 400 strictly less than
`max + 401` (it satisfies `400·numBins < max + 401 ≤ 400·(numBins+1)`,
and every multiple of 400 below `max + 401` is at most it); the top edge
is always strictly greater than the maximum observed value, and when the
maximum is an integer it is exactly the first multiple of 400 strictly
greater than the maximum (the original claim), but not in general.  A
value is assigned to bin `i` iff it is `≤` the bin's upper edge and `>`
its lower edge, except that the lowest bin also contains its lower
edge 0. -/
theorem C4_bin_edges (t : ClaimTable)
    (h1 : values t ≠ []) (h2 : ∀ v ∈ values t, 0 ≤ v) :
    binEdges (maxVal (values t))
        = (List.range (numBins (maxVal (values t)) + 1)).map (fun i => 400 * (i:ℚ))
    ∧ maxVal (values t) < 400 * (numBins (maxVal (values t)) : ℚ)
    ∧ 400 * (numBins (maxVal (values t)) : ℚ) < maxVal (values t) + 401
    ∧ maxVal (values t) + 401 ≤ 400 * ((numBins (maxVal (values t)) : ℚ) + 1)
    ∧ (∀ m : ℕ, 400 * (m:ℚ) < maxVal (values t) + 401 → m ≤ numBins (maxVal (values t)))
    ∧ (∀ z : ℤ, maxVal (values t) = (z:ℚ) →
        400 * (numBins (maxVal (values t)) : ℚ) = specTopEdge (maxVal (values t)))
    ∧ (∀ v : ℚ, ∀ i : ℕ, inBin i v = true ↔
        ((i = 0 ∧ 0 ≤ v ∧ v ≤ 400)
          ∨ (i ≠ 0 ∧ 400 * (i:ℚ) < v ∧ v ≤ 400 * ((i:ℚ)+1))))
    ∧ (∀ v : ℚ, 0 ≤ v → v ≤ maxVal (values t) →
        ∀ i, (binOf (maxVal (values t)) v = some i ↔
          i < numBins (maxVal (values t)) ∧ inBin i v = true)) := by
  have hM : 0 ≤ maxVal (values t) := maxVal_nonneg h1 h2
  refine ⟨rfl, lt_400_numBins hM, numBins_400_lt hM, le_400_numBins_succ hM, ?_, ?_, ?_, ?_⟩
  · -- maximality: every multiple of 400 below max+401 is at most the top edge
    intro m hm
    have h401 := le_400_numBins_succ hM
    have hmq : (m:ℚ) < (numBins (maxVal (values t)) : ℚ) + 1 := by linarith
    have hmn : m < numBins (maxVal (values t)) + 1 := by exact_mod_cast hmq
    omega
  · -- integer maximum: the code's top edge is the spec's top edge
    intro z hz
    have hgt : (z:ℚ) < 400 * (numBins (maxVal (values t)) : ℚ) := by
      rw [← hz]; exact lt_400_numBins hM
    have hlt : 400 * (numBins (maxVal (values t)) : ℚ) < (z:ℚ) + 401 := by
      rw [← hz]; exact numBins_400_lt hM
    have hgtz : z < 400 * (numBins (maxVal (values t)) : ℤ) := by exact_mod_cast hgt
    have hltz : 400 * (numBins (maxVal (values t)) : ℤ) < z + 401 := by exact_mod_cast hlt
    have h400 : (0:ℚ) < 400 := by norm_num
    have hfl := Int.lt_floor_add_one (maxVal (values t) / 400)
    have hfl' := Int.floor_le (maxVal (values t) / 400)
    have hj1 : (z:ℚ) < 400 * ((⌊maxVal (values t)/400⌋ : ℚ) + 1) := by
      calc (z:ℚ) = maxVal (values t) := hz.symm
        _ = (maxVal (values t)/400)*400 := by field_simp
        _ < ((⌊maxVal (values t)/400⌋ : ℚ)+1)*400 := by
            exact mul_lt_mul_of_pos_right hfl h400
        _ = 400*((⌊maxVal (values t)/400⌋:ℚ)+1) := by ring
    have hj2 : 400 * ((⌊maxVal (values t)/400⌋ : ℚ) + 1) ≤ (z:ℚ) + 400 := by
      have hmul : (⌊maxVal (values t)/400⌋ : ℚ) * 400 ≤ (maxVal (values t)/400)*400 :=
        mul_le_mul_of_nonneg_right hfl' h400.le
      have hdm : (maxVal (values t)/400)*400 = maxVal (values t) := by field_simp
      rw [hz] at hdm
      nlinarith
    have hj1z : z < 400 * (⌊maxVal (values t)/400⌋ + 1) := by exact_mod_cast hj1
    have hj2z : 400 * (⌊maxVal (values t)/400⌋ + 1) ≤ z + 400 := by exact_mod_cast hj2
    have hkey : (numBins (maxVal (values t)) : ℤ) = ⌊maxVal (values t)/400⌋ + 1 := by omega
    unfold specTopEdge
    have : (numBins (maxVal (values t)) : ℚ) = (⌊maxVal (values t)/400⌋ : ℚ) + 1 := by
      exact_mod_cast hkey
    rw [this]
  · -- membership rule of pd.cut(right=True, include_lowest=True)
    intro v i
    constructor
    · intro h
      by_cases h0 : i = 0
      · rw [h0] at h ⊢
        unfold inBin at h
        rw [if_pos rfl, Bool.and_eq_true, decide_eq_true_eq, decide_eq_true_eq] at h
        exact Or.inl ⟨rfl, h.1, h.2⟩
      · exact Or.inr ⟨h0, inBin_lower h h0, inBin_upper h⟩
    · rintro (⟨h0, ha, hb⟩ | ⟨h0, ha, hb⟩)
      · rw [h0]; unfold inBin
        rw [if_pos rfl, Bool.and_eq_true, decide_eq_true_eq, decide_eq_true_eq]
        exact ⟨ha, hb⟩
      · unfold inBin
        rw [if_neg h0, Bool.and_eq_true, decide_eq_true_eq, decide_eq_true_eq]
        exact ⟨ha, hb⟩
  · -- the assigned bin is the unique bin containing the value
    intro v hv0 hvM i
    constructor
    · intro h
      rw [binOf] at h
      refine ⟨List.mem_range.mp (List.mem_of_find?_eq_some h), ?_⟩
      simpa using List.find?_some h
    · rintro ⟨hik, hbin⟩
      cases hfind : binOf (maxVal (values t)) v with
      | none =>
        exfalso
        rw [binOf] at hfind
        exact absurd hbin (by simpa using List.find?_eq_none.mp hfind i (List.mem_range.mpr hik))
      | some j =>
        have hfind' := hfind
        rw [binOf] at hfind'
        have hj : inBin j v = true := by simpa using List.find?_some hfind'
        rw [inBin_unique hj hbin]

/-- Witness for C4 at the scenario table: its top bin edge strictly
exceeds the maximum amount 5000. -/
theorem C4_bin_edges_witness :
    maxVal (values demoTable) < 400 * (numBins (maxVal (values demoTable)) : ℚ) :=
  (C4_bin_edges demoTable (by simp [values, amounts, demoTable])
    (by intro v hv; simp [values, amounts, demoTable] at hv
        rcases hv with h|h|h|h|h <;> rw [h] <;> norm_num)).2.1

/-- Counterexample to C4 as stated: for the one-row table with claim
amount 399.5 the code's bin edges are `[0, 400, 800]`, whereas the first
multiple of 400 strictly greater than the maximum is 400, so the spec's
rule predicts edges `[0, 400]`. -/
theorem C4_counterexample :
    values cex4Table = [799/2]
    ∧ maxVal (values cex4Table) = 799/2
    ∧ specTopEdge (799/2) = 400
    ∧ binEdges (799/2) = [0, 400, 800]
    ∧ binEdges (799/2) ≠ [0, 400] := by
  have hfl : ⌊(799:ℚ)/2/400⌋ = 0 := by
    rw [Int.floor_eq_iff]
    constructor <;> norm_num
  have hnb : numBins ((799:ℚ)/2) = 2 := by
    have hc : ⌈((799:ℚ)/2 + 401)/400⌉₊ = 3 := by
      rw [Nat.ceil_eq_iff (by norm_num)]
      constructor <;> norm_num
    unfold numBins
    rw [hc]
  have hedges : binEdges ((799:ℚ)/2) = [0, 400, 800] := by
    rw [binEdges, hnb]
    simp [List.range_succ]
    norm_num
  refine ⟨rfl, rfl, ?_, hedges, ?_⟩
  · unfold specTopEdge
    rw [hfl]
    norm_num
  · rw [hedges]
    intro h
    have hlen := congrArg List.length h
    simp at hlen

/- ----- C5: correlation and covariance ----- -/

lemma completePairs_swap : ∀ (xs ys : List (Option ℚ)),
    completePairs ys xs = (completePairs xs ys).map Prod.swap
  | [], ys => by simp [completePairs]
  | _ :: _, [] => by simp [completePairs]
  | x :: xs, y :: ys => by
    have ih := completePairs_swap xs ys
    simp only [completePairs, List.zip_cons_cons, List.filterMap_cons] at ih ⊢
    cases x <;> cases y <;> simp_all

lemma pairsMeanFst_swap (l : List (ℚ × ℚ)) :
    pairsMeanFst (l.map Prod.swap) = pairsMeanSnd l := by
  unfold pairsMeanFst pairsMeanSnd
  rw [List.map_map, List.length_map]
  rfl

lemma pairsMeanSnd_swap (l : List (ℚ × ℚ)) :
    pairsMeanSnd (l.map Prod.swap) = pairsMeanFst l := by
  unfold pairsMeanFst pairsMeanSnd
  rw [List.map_map, List.length_map]
  rfl

lemma sumXY_swap (l : List (ℚ × ℚ)) : sumXY (l.map Prod.swap) = sumXY l := by
  unfold sumXY
  rw [pairsMeanFst_swap, pairsMeanSnd_swap, List.map_map]
  exact congrArg _ (List.map_congr_left fun p _ => by
    show (p.2 - pairsMeanSnd l) * (p.1 - pairsMeanFst l) = _
    ring)

lemma sumXX_swap (l : List (ℚ × ℚ)) : sumXX (l.map Prod.swap) = sumYY l := by
  unfold sumXX sumYY
  rw [pairsMeanFst_swap, List.map_map]
  rfl

lemma sumYY_swap (l : List (ℚ × ℚ)) : sumYY (l.map Prod.swap) = sumXX l := by
  unfold sumXX sumYY
  rw [pairsMeanSnd_swap, List.map_map]
  rfl

lemma completePairs_self : ∀ (c : List (Option ℚ)),
    completePairs c c = c.reduceOption.map (fun a => (a, a))
  | [] => rfl
  | none :: c => by
    simpa [completePairs, List.zip_cons_cons, List.filterMap_cons]
      using completePairs_self c
  | some a :: c => by
    simpa [completePairs, List.zip_cons_cons, List.filterMap_cons]
      using completePairs_self c

lemma pairsMean_diag (l : List ℚ) :
    pairsMeanSnd (l.map (fun a => (a, a))) = pairsMeanFst (l.map (fun a => (a, a))) := by
  unfold pairsMeanFst pairsMeanSnd
  rw [List.map_map, List.map_map]
  rfl

lemma sumXY_diag (l : List ℚ) :
    sumXY (l.map (fun a => (a, a))) = sumXX (l.map (fun a => (a, a))) := by
  unfold sumXY sumXX
  rw [pairsMean_diag, List.map_map, List.map_map]
  exact congrArg _ (List.map_congr_left fun a _ => by
    show (a - _) * (a - _) = (a - _)^2
    ring)

lemma sumYY_diag (l : List ℚ) :
    sumYY (l.map (fun a => (a, a))) = sumXX (l.map (fun a => (a, a))) := by
  unfold sumYY sumXX
  rw [pairsMean_diag, List.map_map, List.map_map]
  rfl

lemma sumXX_nonneg (l : List (ℚ × ℚ)) : 0 ≤ sumXX l := by
  apply List.sum_nonneg
  intro x hx
  obtain ⟨p, _, rfl⟩ := List.mem_map.mp hx
  positivity

/-- C5 (amended): the correlation matrix is symmetric and the covariance
matrix is symmetric for every claims table; whenever an entry is defined
(not NaN), the correlation diagonal equals 1 and the covariance diagonal
is non-negative.  (On degenerate tables — fewer than two complete rows,
or a constant column — the diagonal entries are NaN rather than 1 /
non-negative; see the counterexample.) -/
theorem C5_corr_cov (t : ClaimTable) (i j : Fin 4) :
    corrValue (corrM t i j) = corrValue (corrM t j i)
    ∧ covM t i j = covM t j i
    ∧ (∀ r : ℝ, corrValue (corrM t i i) = some r → r = 1)
    ∧ (∀ q : ℚ, covM t i i = some q → 0 ≤ q) := by
  refine ⟨?_, ?_, ?_, ?_⟩
  · unfold corrM corrEntry
    rw [completePairs_swap (numericCols t i) (numericCols t j), sumXX_swap, sumYY_swap,
      sumXY_swap]
    by_cases h : sumXX (completePairs (numericCols t i) (numericCols t j))
        * sumYY (completePairs (numericCols t i) (numericCols t j)) = 0
    · rw [if_pos h, if_pos (by rw [mul_comm] at h; exact h)]
    · rw [if_neg h, if_neg (by rw [mul_comm]; exact h)]
      simp only [corrValue]
      rw [mul_comm ((sumYY (completePairs (numericCols t i) (numericCols t j)) : ℝ))]
  · unfold covM covEntry
    rw [completePairs_swap (numericCols t i) (numericCols t j), sumXY_swap, List.length_map]
  · intro r hr
    unfold corrM corrEntry at hr
    rw [completePairs_self, sumXY_diag, sumYY_diag] at hr
    by_cases h : sumXX ((numericCols t i).reduceOption.map (fun a => (a, a)))
        * sumXX ((numericCols t i).reduceOption.map (fun a => (a, a))) = 0
    · rw [if_pos h] at hr
      cases hr
    · rw [if_neg h] at hr
      unfold corrValue at hr
      have hS0 : sumXX ((numericCols t i).reduceOption.map (fun a => (a, a))) ≠ 0 :=
        fun h0 => h (by rw [h0]; ring)
      have hSpos : (0:ℝ) < (sumXX ((numericCols t i).reduceOption.map (fun a => (a, a))) : ℝ) := by
        have h1 := sumXX_nonneg ((numericCols t i).reduceOption.map (fun a => (a, a)))
        have h2 : (sumXX ((numericCols t i).reduceOption.map (fun a => (a, a))) : ℝ) ≠ 0 := by
          exact_mod_cast hS0
        have h3 : (0:ℝ) ≤ (sumXX ((numericCols t i).reduceOption.map (fun a => (a, a))) : ℝ) := by
          exact_mod_cast h1
        exact lt_of_le_of_ne h3 (Ne.symm h2)
      have := Option.some_injective _ hr
      rw [← this, Real.sqrt_mul_self hSpos.le, div_self hSpos.ne']
  · intro q hq
    unfold covM covEntry at hq
    rw [completePairs_self, sumXY_diag] at hq
    by_cases h : ((numericCols t i).reduceOption.map (fun a : ℚ => (a, a))).length ≤ 1
    · rw [if_pos h] at hq
      cases hq
    · rw [if_neg h] at hq
      have hn : (1:ℚ) < (((numericCols t i).reduceOption.map (fun a : ℚ => (a, a))).length : ℚ) := by
        have : 1 < ((numericCols t i).reduceOption.map (fun a : ℚ => (a, a))).length := by omega
        exact_mod_cast this
      have := Option.some_injective _ hq
      rw [← this]
      apply div_nonneg (sumXX_nonneg _)
      linarith

/-- Witness for C5 at the scenario table, fields Age and ClaimAmount. -/
theorem C5_corr_cov_witness :
    corrValue (corrM demoTable 0 1) = corrValue (corrM demoTable 1 0)
    ∧ covM demoTable 0 1 = covM demoTable 1 0
    ∧ (∀ r : ℝ, corrValue (corrM demoTable 0 0) = some r → r = 1)
    ∧ (∀ q : ℚ, covM demoTable 0 0 = some q → 0 ≤ q) :=
  C5_corr_cov demoTable 0 1

/-- Counterexample to C5 as stated: on a one-row table the correlation
diagonal entry is NaN (undefined), not 1, and the covariance diagonal
entry is NaN, not a non-negative variance. -/
theorem C5_counterexample :
    corrM oneRowTable 0 0 = none ∧ covM oneRowTable 0 0 = none := by
  have hcp : completePairs (numericCols oneRowTable 0) (numericCols oneRowTable 0)
      = [((44:ℚ), (44:ℚ))] := rfl
  constructor
  · unfold corrM corrEntry
    rw [hcp, if_pos]
    norm_num [sumXX, sumYY, pairsMeanFst, pairsMeanSnd]
  · unfold covM covEntry
    rw [hcp, if_pos]
    norm_num

/- ----- C7 / C8: Welch t-test and ANOVA ----- -/

lemma listVar_none_of_short {xs : List (Option ℚ)} (h : xs.length < 2) :
    listVar xs = none := by
  unfold listVar
  rw [if_pos (Or.inr h)]

/-- C7: the Welch test partitions the claim amounts by the smoker flag
(1 vs 0) and computes the unequal-variance t statistic; if either group
has fewer than two observations the result is NaN (undefined) rather
than a valid statistic. -/
theorem C7_welch_ttest (t : ClaimTable) :
    smokersAmounts t
        = (t.filter (fun r => decide (r.isSmoker = 1))).map (fun r => r.claimAmount)
    ∧ nonsmokersAmounts t
        = (t.filter (fun r => decide (r.isSmoker = 0))).map (fun r => r.claimAmount)
    ∧ (((smokersAmounts t).length < 2 ∨ (nonsmokersAmounts t).length < 2) →
        welchStats t = none) := by
  refine ⟨rfl, rfl, ?_⟩
  intro h
  unfold welchStats welchFromGroups
  rcases h with h | h
  · have hv : listVar (smokersAmounts t) = none := listVar_none_of_short h
    rcases hm1 : listMean (smokersAmounts t) with _ | m1 <;>
      rcases hm2 : listMean (nonsmokersAmounts t) with _ | m2 <;>
      simp [hm1, hm2, hv]
  · have hv : listVar (nonsmokersAmounts t) = none := listVar_none_of_short h
    rcases hm1 : listMean (smokersAmounts t) with _ | m1 <;>
      rcases hm2 : listMean (nonsmokersAmounts t) with _ | m2 <;>
      rcases hv1 : listVar (smokersAmounts t) with _ | v1 <;>
      simp [hm1, hm2, hv1, hv]

/-- Witness for C7: a table with exactly one smoker makes the Welch test
NaN. -/
theorem C7_welch_ttest_witness : welchStats singleSmokerTable = none :=
  (C7_welch_ttest singleSmokerTable).2.2 (Or.inl (by decide))

/-- C8 (amended): with at least two distinct department values the ANOVA
call returns a defined (possibly NaN) result and does not abort; but
with a single distinct department value `scipy.stats.f_oneway` raises
`TypeError` ("at least two inputs are required") and the run crashes —
see the counterexample. -/
theorem C8_anova_single_department (t : ClaimTable) (h : 2 ≤ (deptNames t).length) :
    ∃ r, fOneway (deptGroups t) = Except.ok r := by
  unfold fOneway
  have hlen : ¬ (deptGroups t).length < 2 := by
    unfold deptGroups
    rw [List.length_map]
    omega
  rw [if_neg hlen]
  split_ifs <;> exact ⟨_, rfl⟩

/-- Witness for C8 at a two-department table. -/
theorem C8_anova_single_department_witness :
    ∃ r, fOneway (deptGroups testTable) = Except.ok r :=
  C8_anova_single_department testTable (by decide)

/-- Counterexample to C8 as stated: on a table whose `Department` column
has the single value "A", the ANOVA step raises (modelled as
`Except.error ()`), aborting the run, instead of producing a defined
degenerate output. -/
theorem C8_counterexample : fOneway (deptGroups oneDeptTable) = Except.error () := rfl

/- ----- C6: p-value bounds via the incomplete beta function ----- -/

lemma betaIntegrand_integrable {a b : ℝ} (ha : 0 < a) (hb : 0 < b) :
    IntervalIntegrable (fun u : ℝ => u ^ (a-1) * (1-u) ^ (b-1))
      MeasureTheory.volume 0 1 := by
  have hc := Complex.betaIntegral_convergent (u := (a:ℂ)) (v := (b:ℂ))
    (by simpa using ha) (by simpa using hb)
  have h1 : MeasureTheory.IntegrableOn
      (fun x : ℝ => ((x:ℂ) ^ ((a:ℂ)-1) * (1-(x:ℂ)) ^ ((b:ℂ)-1)).re) (Set.Ioc 0 1)
      MeasureTheory.volume := hc.1.re
  refine ⟨?_, ?_⟩
  · apply h1.congr_fun ?_ measurableSet_Ioc
    intro x hx
    show ((x:ℂ) ^ ((a:ℂ)-1) * (1-(x:ℂ)) ^ ((b:ℂ)-1)).re = x ^ (a-1) * (1-x) ^ (b-1)
    rw [show ((a:ℂ)-1) = ((a-1 : ℝ):ℂ) by push_cast; ring,
      show ((b:ℂ)-1) = ((b-1 : ℝ):ℂ) by push_cast; ring,
      show (1 - (x:ℂ)) = (((1 - x : ℝ)):ℂ) by push_cast; ring,
      ← Complex.ofReal_cpow hx.1.le, ← Complex.ofReal_cpow (by linarith [hx.2] : (0:ℝ) ≤ 1 - x),
      ← Complex.ofReal_mul, Complex.ofReal_re]
  · rw [Set.Ioc_eq_empty (by norm_num)]
    exact MeasureTheory.integrableOn_empty

lemma betaInc_nonneg {a b x : ℝ} (hx0 : 0 ≤ x) (hx1 : x ≤ 1) : 0 ≤ betaInc a b x := by
  apply intervalIntegral.integral_nonneg hx0
  intro u hu
  exact mul_nonneg (Real.rpow_nonneg hu.1 _)
    (Real.rpow_nonneg (by linarith [le_trans hu.2 hx1] : (0:ℝ) ≤ 1 - u) _)

lemma betaInc_le_one_arg {a b x : ℝ} (ha : 0 < a) (hb : 0 < b)
    (hx0 : 0 ≤ x) (hx1 : x ≤ 1) : betaInc a b x ≤ betaInc a b 1 := by
  unfold betaInc
  apply intervalIntegral.integral_mono_interval (le_refl (0:ℝ)) hx0 hx1
  · exact MeasureTheory.ae_restrict_of_forall_mem measurableSet_Ioc
      (fun u hu => mul_nonneg (Real.rpow_nonneg hu.1.le _)
        (Real.rpow_nonneg (by linarith [hu.2] : (0:ℝ) ≤ 1 - u) _))
  · exact betaIntegrand_integrable ha hb

lemma regIncBeta_bounds {a b x : ℝ} (ha : 0 < a) (hb : 0 < b)
    (hx0 : 0 ≤ x) (hx1 : x ≤ 1) : 0 ≤ regIncBeta a b x ∧ regIncBeta a b x ≤ 1 := by
  have h0x := betaInc_nonneg (a := a) (b := b) hx0 hx1
  have h01 := betaInc_nonneg (a := a) (b := b) (by norm_num : (0:ℝ) ≤ 1) (le_refl 1)
  constructor
  · exact div_nonneg h0x h01
  · rcases eq_or_lt_of_le h01 with h | h
    · unfold regIncBeta
      rw [← h, div_zero]
      norm_num
    · exact (div_le_one h).mpr (betaInc_le_one_arg ha hb hx0 hx1)

lemma listVar_some {xs : List (Option ℚ)} {v : ℚ} (h : listVar xs = some v) :
    0 ≤ v ∧ 2 ≤ xs.length := by
  unfold listVar at h
  split_ifs at h with hc
  push_neg at hc
  have hlen : 2 ≤ xs.length := by omega
  have hv := Option.some_injective _ h
  refine ⟨?_, hlen⟩
  rw [← hv]
  apply div_nonneg
  · apply List.sum_nonneg
    intro y hy
    obtain ⟨x, _, rfl⟩ := List.mem_map.mp hy
    positivity
  · have h2 : (2:ℚ) ≤ (xs.length:ℚ) := by exact_mod_cast hlen
    linarith

lemma welch_inversion {sm ns : List (Option ℚ)} {tsq df : ℚ}
    (h : welchFromGroups sm ns = some (tsq, df)) : 0 ≤ tsq ∧ 0 < df := by
  unfold welchFromGroups at h
  rcases hm1 : listMean sm with _ | m1 <;>
    rcases hm2 : listMean ns with _ | m2 <;>
    rcases hv1 : listVar sm with _ | v1 <;>
    rcases hv2 : listVar ns with _ | v2 <;>
    simp only [hm1, hm2, hv1, hv2] at h <;> try cases h
  obtain ⟨hv1p, hn1⟩ := listVar_some hv1
  obtain ⟨hv2p, hn2⟩ := listVar_some hv2
  have hn1q : (2:ℚ) ≤ (sm.length:ℚ) := by exact_mod_cast hn1
  have hn2q : (2:ℚ) ≤ (ns.length:ℚ) := by exact_mod_cast hn2
  have ha : 0 ≤ v1 / (sm.length:ℚ) := div_nonneg hv1p (by linarith)
  have hb : 0 ≤ v2 / (ns.length:ℚ) := div_nonneg hv2p (by linarith)
  split_ifs at h with hden
  rw [Option.some.injEq, Prod.mk.injEq] at h
  obtain ⟨htsq, hdf⟩ := h
  have habpos : 0 < v1 / (sm.length:ℚ) + v2 / (ns.length:ℚ) :=
    lt_of_le_of_ne (by linarith) (Ne.symm hden)
  constructor
  · rw [← htsq]
    exact div_nonneg (by positivity) habpos.le
  · rw [← hdf]
    apply div_pos (pow_pos habpos 2)
    have hd1 : (0:ℚ) < (sm.length:ℚ) - 1 := by linarith
    have hd2 : (0:ℚ) < (ns.length:ℚ) - 1 := by linarith
    have ht1 : 0 ≤ (v1 / (sm.length:ℚ))^2 / ((sm.length:ℚ) - 1) := by positivity
    have ht2 : 0 ≤ (v2 / (ns.length:ℚ))^2 / ((ns.length:ℚ) - 1) := by positivity
    rcases lt_or_eq_of_le ht1 with h1 | h1
    · linarith
    rcases lt_or_eq_of_le ht2 with h2 | h2
    · linarith
    exfalso
    have e1 : v1 / (sm.length:ℚ) = 0 := by
      have h' := h1.symm
      rw [div_eq_zero_iff] at h'
      rcases h' with h' | h'
      · exact pow_eq_zero_iff (by norm_num) |>.mp h'
      · linarith
    have e2 : v2 / (ns.length:ℚ) = 0 := by
      have h' := h2.symm
      rw [div_eq_zero_iff] at h'
      rcases h' with h' | h'
      · exact pow_eq_zero_iff (by norm_num) |>.mp h'
      · linarith
    rw [e1, e2] at habpos
    norm_num at habpos

lemma fOneway_inversion {gs : List (List (Option ℚ))} {F : ℚ} {dfn dfd : ℕ}
    (h : fOneway gs = Except.ok (some (F, dfn, dfd))) :
    0 ≤ F ∧ 1 ≤ dfn ∧ 1 ≤ dfd := by
  unfold fOneway at h
  split_ifs at h with h1 h2 h3
  · exact Option.noConfusion (Except.ok.inj h)
  · exact Option.noConfusion (Except.ok.inj h)
  simp only [Except.ok.injEq, Option.some.injEq, Prod.mk.injEq] at h
  obtain ⟨hF, hdfn, hdfd⟩ := h
  push_neg at h1 h3
  obtain ⟨hNk, hssw⟩ := h3
  have hk2 : 2 ≤ gs.length := h1
  refine ⟨?_, by omega, by omega⟩
  rw [← hF]
  apply div_nonneg (div_nonneg ?_ ?_) (div_nonneg ?_ ?_)
  · apply List.sum_nonneg
    intro y hy
    obtain ⟨g, _, rfl⟩ := List.mem_map.mp hy
    positivity
  · have h2k : (2:ℚ) ≤ (gs.length:ℚ) := by exact_mod_cast hk2
    linarith
  · apply List.sum_nonneg
    intro y hy
    obtain ⟨g, _, rfl⟩ := List.mem_map.mp hy
    apply List.sum_nonneg
    intro z hz
    obtain ⟨w, _, rfl⟩ := List.mem_map.mp hz
    positivity
  · have hNk' : gs.length < ((gs.map List.reduceOption).map List.length).sum := by omega
    have hcast : ((gs.length:ℕ):ℚ)
        < ((((gs.map List.reduceOption).map List.length).sum : ℕ):ℚ) := by
      exact_mod_cast hNk'
    linarith

lemma expectedTab_nonneg (t : ClaimTable) :
    ∀ row ∈ expectedTab t, ∀ e ∈ row, 0 ≤ e := by
  intro row hrow e he
  obtain ⟨orow, _, rfl⟩ := List.mem_map.mp hrow
  obtain ⟨j, _, rfl⟩ := List.mem_map.mp he
  apply div_nonneg _ (Nat.cast_nonneg _)
  apply mul_nonneg (Nat.cast_nonneg _)
  try exact Nat.cast_nonneg _
  all_goals
    apply List.sum_nonneg
    intro y hy
    obtain ⟨r, _, rfl⟩ := List.mem_map.mp hy
    exact Nat.cast_nonneg _

lemma chiTerm_nonneg {o : ℕ} {e : ℚ} (he : 0 ≤ e) (y : Bool) : 0 ≤ chiTerm o e y := by
  unfold chiTerm
  split_ifs
  · apply div_nonneg _ he
    positivity
  · apply div_nonneg _ he
    positivity

lemma chiStat_nonneg (t : ClaimTable) : 0 ≤ chiStat t := by
  unfold chiStat
  apply List.sum_nonneg
  intro s hs
  obtain ⟨rc, hrc, rfl⟩ := List.mem_map.mp hs
  apply List.sum_nonneg
  intro u hu
  obtain ⟨oe, hoe, rfl⟩ := List.mem_map.mp hu
  exact chiTerm_nonneg
    (expectedTab_nonneg t rc.2 (List.of_mem_zip hrc).2 oe.2 (List.of_mem_zip hoe).2) _

/-- C6: whenever the Welch t-test and the ANOVA produce defined (non-NaN)
results, their p-values lie in [0, 1]; the chi-square statistic is
non-negative; and the chi-square degrees of freedom equal
(rows − 1) · (columns − 1) of the contingency table. -/
theorem C6_test_outputs (t : ClaimTable) (tsq df F : ℚ) (dfn dfd : ℕ)
    (hw : welchStats t = some (tsq, df))
    (ha : fOneway (deptGroups t) = Except.ok (some (F, dfn, dfd))) :
    (0 ≤ welchP t ∧ welchP t ≤ 1)
    ∧ (0 ≤ anovaP t ∧ anovaP t ≤ 1)
    ∧ 0 ≤ chiStat t
    ∧ chiDof t
        = (((deniedVals t).length : ℤ) - 1) * (((smokerVals t).length : ℤ) - 1) := by
  obtain ⟨htsq, hdf⟩ := @welch_inversion (smokersAmounts t) (nonsmokersAmounts t) tsq df hw
  obtain ⟨hF, hdfn, hdfd⟩ := fOneway_inversion ha
  refine ⟨?_, ?_, chiStat_nonneg t, by unfold chiDof; ring⟩
  · have hwp : welchP t = regIncBeta ((df:ℝ)/2) (1/2) ((df:ℝ)/((df:ℝ) + (tsq:ℝ))) := by
      unfold welchP
      rw [hw]
    rw [hwp]
    have hdfR : (0:ℝ) < (df:ℝ) := by exact_mod_cast hdf
    have htsqR : (0:ℝ) ≤ (tsq:ℝ) := by exact_mod_cast htsq
    have hden : (0:ℝ) < (df:ℝ) + (tsq:ℝ) := by linarith
    exact regIncBeta_bounds (by linarith) (by norm_num)
      (div_nonneg hdfR.le hden.le) ((div_le_one hden).mpr (by linarith))
  · have hap : anovaP t
        = regIncBeta ((dfd:ℝ)/2) ((dfn:ℝ)/2) ((dfd:ℝ)/((dfd:ℝ) + (dfn:ℝ) * (F:ℝ))) := by
      unfold anovaP
      rw [ha]
    rw [hap]
    have hdfdR : (1:ℝ) ≤ (dfd:ℝ) := by exact_mod_cast hdfd
    have hdfnR : (1:ℝ) ≤ (dfn:ℝ) := by exact_mod_cast hdfn
    have hFR : (0:ℝ) ≤ (F:ℝ) := by exact_mod_cast hF
    have hprod : (0:ℝ) ≤ (dfn:ℝ) * (F:ℝ) := by positivity
    have hden : (0:ℝ) < (dfd:ℝ) + (dfn:ℝ) * (F:ℝ) := by linarith
    exact regIncBeta_bounds (by linarith) (by linarith)
      (div_nonneg (by linarith) hden.le) ((div_le_one hden).mpr (by linarith))

lemma welch_eval_testTable : welchStats testTable = some (4/5, 25/17) := by
  have hsm : smokersAmounts testTable = [some 100, some 300] := rfl
  have hns : nonsmokersAmounts testTable = [some 200, some 600] := rfl
  unfold welchStats
  rw [hsm, hns]
  unfold welchFromGroups listMean listVar hasNone
  norm_num [List.reduceOption_cons_of_some, List.reduceOption_nil]

lemma fOneway_eval_testTable :
    fOneway (deptGroups testTable) = Except.ok (some (4/5, 1, 2)) := by
  have hg : deptGroups testTable = [[some 100, some 300], [some 200, some 600]] := rfl
  rw [hg]
  unfold fOneway hasNone
  norm_num [List.reduceOption_cons_of_some, List.reduceOption_nil]
  rintro (h | h) <;> cases h

/-- Witness for C6 at a well-conditioned four-row table. -/
theorem C6_test_outputs_witness :
    (0 ≤ welchP testTable ∧ welchP testTable ≤ 1)
    ∧ (0 ≤ anovaP testTable ∧ anovaP testTable ≤ 1)
    ∧ 0 ≤ chiStat testTable
    ∧ chiDof testTable
        = (((deniedVals testTable).length : ℤ) - 1)
            * (((smokerVals testTable).length : ℤ) - 1) :=
  C6_test_outputs testTable (4/5) (25/17) (4/5) 1 2 welch_eval_testTable fOneway_eval_testTable

/- ----- C9: determinism ----- -/

/-- C9: the computation from the loaded tables to every tabular and text
artifact is a pure function of its input: running it twice on equal
inputs yields identical outputs. -/
theorem C9_determinism (t1 t2 : ClaimTable) (r1 r2 : List ℚ)
    (ht : t1 = t2) (hr : r1 = r2) : pipeline t1 r1 = pipeline t2 r2 := by
  rw [ht, hr]

/-- Witness for C9: two runs at the scenario table and a two-month
revenue column. -/
theorem C9_determinism_witness :
    pipeline demoTable [1000, 2000] = pipeline demoTable [1000, 2000] :=
  C9_determinism demoTable demoTable [1000, 2000] [1000, 2000] rfl rfl

end RunAnalysis
